import Mathlib

/-!
Verification development for the clinical-filter trio filtering engine.

The repository ships the test suite (`tests/test_clinical_filter.py`,
`tests/test_family.py`, `tests/test_load_files.py`) together with option
parsing and a batch helper script; the filtering engine itself
(`clinicalfilter/filter.py`, `clinicalfilter/ped.py`,
`clinicalfilter/load_files.py`, `clinicalfilter/trio_genotypes.py`) is not
part of the sources available here.  The definitions below are therefore a
shallow model of those modules, built from the specification (spec.md) with
behaviour pinned by the shipped test suite wherever the two disagree.
-/

namespace CF

/-- Modelled from the spec: sex codes accepted as male for pedigree members
(`clinicalfilter/ped.py` is not among the sources).  The tests use "1", "m"
and "male" for males. -/
def maleCodes : List String := ["1", "m", "M", "male"]

/-- Modelled from the spec: sex codes accepted as female for pedigree
members.  The tests use "2", "f" and "female" for females. -/
def femaleCodes : List String := ["2", "f", "F", "female"]

/-- Modelled from the spec: a pedigree member (`Person` of
`clinicalfilter/ped.py`, which is not among the sources): identifier,
family identifier, parent identifiers (`"0"` meaning unknown), sex code,
affected-status code, source-data path, plus the examined flag used by the
current-child protocol. -/
structure Person where
  family_id : String
  person_id : String
  dad_id : String
  mom_id : String
  gender : String
  status : String
  path : String
  analysed : Bool
  deriving DecidableEq

/-- Whether the person has been analysed already. -/
def Person.is_analysed (p : Person) : Bool := p.analysed

/-- Affected status: code "2" means affected. -/
def Person.is_affected (p : Person) : Bool := p.status == "2"

/-- Modelled from the spec: the family unit of `clinicalfilter/ped.py`
(not among the sources): ordered children, optional mother and father and
the current-child pointer. -/
structure Family where
  family_id : String
  children : List Person
  mother : Option Person
  father : Option Person
  child : Option Person
  deriving DecidableEq

/-- Modelled from the spec: `Family.add_father` of `clinicalfilter/ped.py`
(not among the sources).  Fails when the sex code is not male, or when a
father with a different person id exists; re-adding the same father id is a
no-op. -/
def Family.add_father (fam : Family)
    (person_id dad_id mom_id gender status path : String) :
    Except String Family :=
  let p : Person := ⟨fam.family_id, person_id, dad_id, mom_id, gender, status, path, false⟩
  if gender ∉ maleCodes then
    .error "the father of a family must be male"
  else
    match fam.father with
    | some f =>
        if f.person_id = person_id then .ok fam
        else .error "a different father is already set for this family"
    | none =>
        .ok { fam with father := some p }

/-- Modelled from the spec: `Family.add_mother` of `clinicalfilter/ped.py`
(not among the sources); symmetric to `add_father`. -/
def Family.add_mother (fam : Family)
    (person_id dad_id mom_id gender status path : String) :
    Except String Family :=
  let p : Person := ⟨fam.family_id, person_id, dad_id, mom_id, gender, status, path, false⟩
  if gender ∉ femaleCodes then
    .error "the mother of a family must be female"
  else
    match fam.mother with
    | some m =>
        if m.person_id = person_id then .ok fam
        else .error "a different mother is already set for this family"
    | none =>
        .ok { fam with mother := some p }

/-- Modelled from the spec: `Family.add_child` appends a child (unlimited
children per family). -/
def Family.add_child (fam : Family)
    (person_id dad_id mom_id gender status path : String) : Family :=
  let p : Person := ⟨fam.family_id, person_id, dad_id, mom_id, gender, status, path, false⟩
  { fam with children := fam.children ++ [p] }

/-- Mark every child with the given person id as analysed. -/
def markIf (x : String) (l : List Person) : List Person :=
  l.map (fun c => if c.person_id = x then { c with analysed := true } else c)

/-- Number of children not yet analysed. -/
def countU (l : List Person) : Nat := (l.filter (fun c => !c.analysed)).length

/-- Modelled from the spec: `Family.set_child` selects the first unexamined
child in insertion order, or sets the pointer to `none` when all children
have been examined. -/
def Family.set_child (fam : Family) : Family :=
  { fam with child := fam.children.find? (fun c => !c.analysed) }

/-- Modelled from the spec: `Family.set_child_examined` marks the current
child as analysed in the children list and then re-runs the selection, so
the pointer moves to the next unexamined child (`none` when none remain).
The re-selection step is pinned by `test_set_child_examined`, which requires
a non-absent pointer while unexamined children remain. -/
def Family.set_child_examined (fam : Family) : Family :=
  match fam.child with
  | none => { fam with child := none }
  | some cur =>
      Family.set_child { fam with children := markIf cur.person_id fam.children }

/-- One analysis round: select the current child, then mark it examined. -/
def analysis_round (fam : Family) : Family := fam.set_child.set_child_examined

/-- Iterated analysis rounds. -/
def analysis_rounds : Nat → Family → Family
  | 0, fam => fam
  | k + 1, fam => analysis_rounds k (analysis_round fam)

/-- Boolean error test for `Except`. -/
def isErr {α : Type} : Except String α → Bool
  | .error _ => true
  | .ok _ => false

/-- Genotype of one sample at one site: count of alternate alleles. -/
inductive Geno
  | homRef
  | het
  | homAlt
  deriving DecidableEq

/-- Modelled from the spec: one annotated single-nucleotide variant record
(`clinicalfilter/variant/snv.py` is not among the sources): position and
alleles, the sample's genotype and sex, the de novo flag with its `PP_DNM`
posterior probability (a rational stands in for the float), and the
positionally aligned gene-symbol and consequence lists. -/
structure SNV where
  chrom : String
  position : Nat
  ref : String
  alts : String
  genotype : Geno
  gender : String
  denovo : Bool
  pp_dnm : Option ℚ
  genes : List String
  cqs : List String
  deriving DecidableEq

/-- Modelled from the spec: `TrioGenotypes` groups the child's, mother's and
father's variant records for one site (`clinicalfilter/trio_genotypes.py`
is not among the sources). -/
structure TrioGenotypes where
  chrom : String
  pos : Nat
  child : SNV
  mother : SNV
  father : SNV
  deriving DecidableEq

/-- Modelled from the spec: a filter-result record, the unit merged by the
result reducer: subject, check-category labels, inheritance-model labels
and gene symbols. -/
structure VarRec where
  subject : TrioGenotypes
  checks : List String
  models : List String
  genes : List String
  deriving DecidableEq

/-- Modelled from the spec: the filtering engine's configuration
(`clinicalfilter/filter.py` is not among the sources): the optional gene
knowledge base (gene symbol to inheritance-model names) and the `PP_DNM`
threshold. -/
structure Filter where
  known_genes : Option (List (String × List String))
  pp_filter : ℚ
  deriving DecidableEq

/-- Modelled from the spec: consequence strings counted as functional; a
variant only qualifies in a gene when its consequence for that gene is in
this set (missense qualifies, synonymous does not). -/
def functional_cqs : List String :=
  ["transcript_ablation", "splice_donor_variant", "splice_acceptor_variant",
   "stop_gained", "frameshift_variant", "stop_lost", "start_lost",
   "transcript_amplification", "inframe_insertion", "inframe_deletion",
   "missense_variant", "protein_altering_variant", "coding_sequence_variant"]

/-- Whether the variant has a functional consequence for the given gene:
some position of the variant's gene list holds that gene with a functional
consequence at the matching position of the consequence list. -/
def is_functional_in_gene (v : SNV) (gene : String) : Bool :=
  (v.genes.zip v.cqs).any (fun p => p.1 == gene && functional_cqs.contains p.2)

/-- Autosomes are every chromosome other than X and Y. -/
def is_autosomal (chrom : String) : Bool := chrom != "X" && chrom != "Y"

/-- Modelled from the spec: the full default inheritance-model set for
autosomal variants, used when no knowledge base is supplied. -/
def autosomal_modes : List String := ["Monoallelic", "Biallelic", "Both", "Mosaic"]

/-- Modelled from the spec: the full default inheritance-model set for
allosomal (X/Y) variants. -/
def allosomal_modes : List String :=
  ["X-linked dominant", "Hemizygous", "X-linked over-dominance"]

/-- Default model set for a variant list, selected by the chromosome of its
first variant. -/
def modes_for (vs : List TrioGenotypes) : List String :=
  match vs.head? with
  | none => []
  | some v => if is_autosomal v.chrom then autosomal_modes else allosomal_modes

/-- The sample carries at least one alternate allele. -/
def carries (v : SNV) : Bool := v.genotype != Geno.homRef

/-- Modelled from the spec: de novo origin, gated by the `PP_DNM` filter:
the child's record is flagged de novo, neither parent carries the allele,
and any `PP_DNM` annotation meets the configured threshold. -/
def de_novo (cfg : Filter) (t : TrioGenotypes) : Bool :=
  t.child.denovo && t.mother.genotype == Geno.homRef &&
    t.father.genotype == Geno.homRef &&
    (match t.child.pp_dnm with
     | none => true
     | some p => decide (cfg.pp_filter ≤ p))

/-- Whether the family's mother is affected. -/
def affected_mother (fam : Family) : Bool :=
  match fam.mother with
  | some m => m.is_affected
  | none => false

/-- Whether the family's father is affected. -/
def affected_father (fam : Family) : Bool :=
  match fam.father with
  | some f => f.is_affected
  | none => false

/-- The allele was transmitted by an affected carrier parent. -/
def inherited_affected (fam : Family) (t : TrioGenotypes) : Bool :=
  (carries t.mother && affected_mother fam) || (carries t.father && affected_father fam)

/-- Modelled from the spec: the single-variant Mendelian-consistency check
of the inheritance evaluator (`clinicalfilter/inheritance.py` is not among
the sources).  Dominant-acting models (Monoallelic, Mosaic, X-linked
dominant) accept a carrier child whose allele is de novo or transmitted by
an affected parent; recessive-acting models (Biallelic, Both, Hemizygous in
females) demand a homozygous child; Hemizygous in males accepts a carrier
child with a de novo or maternally transmitted allele. -/
def single_passes (cfg : Filter) (fam : Family) (mode : String) (t : TrioGenotypes) : Bool :=
  if is_autosomal t.chrom then
    if mode == "Monoallelic" || mode == "Mosaic" then
      carries t.child && (de_novo cfg t || inherited_affected fam t)
    else if mode == "Biallelic" || mode == "Both" then
      t.child.genotype == Geno.homAlt &&
        (de_novo cfg t || (carries t.mother && carries t.father))
    else false
  else
    if mode == "X-linked dominant" then
      carries t.child && (de_novo cfg t || inherited_affected fam t)
    else if mode == "Hemizygous" then
      if maleCodes.contains t.child.gender then
        carries t.child && (de_novo cfg t || carries t.mother)
      else
        t.child.genotype == Geno.homAlt && (de_novo cfg t || carries t.mother)
    else false

/-- Inheritance models for which compound-heterozygous pairs are examined. -/
def compound_modes : List String := ["Biallelic", "Both", "Hemizygous"]

/-- Modelled from the spec: a qualifying compound-heterozygous pair — two
distinct variants, the child heterozygous for both, one transmitted by each
parent. -/
def compound_pair_ok (t1 t2 : TrioGenotypes) : Bool :=
  !(t1 == t2) && t1.child.genotype == Geno.het && t2.child.genotype == Geno.het &&
    ((carries t1.mother && !carries t1.father && carries t2.father && !carries t2.mother) ||
     (carries t1.father && !carries t1.mother && carries t2.mother && !carries t2.father))

/-- All ordered pairs of distinct positions in a variant list. -/
def pairs_of : List TrioGenotypes → List (TrioGenotypes × TrioGenotypes)
  | [] => []
  | v :: rest => rest.map (fun w => (v, w)) ++ pairs_of rest

/-- Modelled from the spec: evaluate one gene's variant list against a set
of candidate inheritance models, collecting the passing (variant,
check-category, model, gene) records for the single-variant pass and the
compound-heterozygous pass. -/
def eval_gene (cfg : Filter) (modes : List String) (variants : List TrioGenotypes)
    (gene : String) (fam : Family) : List VarRec :=
  let relevant := variants.filter (fun v => is_functional_in_gene v.child gene)
  modes.flatMap (fun m =>
    (relevant.filter (fun v => single_passes cfg fam m v)).map
        (fun v => ⟨v, ["single_variant"], [m], [gene]⟩)
      ++ (if compound_modes.contains m then
            ((pairs_of relevant).filter (fun p => compound_pair_ok p.1 p.2)).flatMap
              (fun p => [⟨p.1, ["compound_het"], [m], [gene]⟩,
                         ⟨p.2, ["compound_het"], [m], [gene]⟩])
          else []))

/-- Look a gene symbol up in the knowledge base. -/
def lookup_gene (kb : List (String × List String)) (gene : String) :
    Option (List String) :=
  (kb.find? (fun p => p.1 == gene)).map Prod.snd

/-- Modelled from the spec: `Filter.find_variants` (the entry point of the
inheritance evaluator in `clinicalfilter/filter.py`, not among the
sources).  An absent gene symbol yields no results.  With no knowledge base
every gene is evaluated against the full default model set; with a
populated knowledge base a gene without an entry yields no results (pinned
by `test_find_variants`), and a known gene is evaluated against its
annotated models restricted to those plausible for the chromosome. -/
def Filter.find_variants (cfg : Filter) (variants : List TrioGenotypes)
    (gene : Option String) (fam : Family) : List VarRec :=
  match gene with
  | none => []
  | some g =>
      match cfg.known_genes with
      | none => eval_gene cfg (modes_for variants) variants g fam
      | some kb =>
          match lookup_gene kb g with
          | none => []
          | some gene_inh =>
              eval_gene cfg (gene_inh.filter (fun m => (modes_for variants).contains m))
                variants g fam

/-- Append a variant to the bucket of one gene, keeping first-occurrence
order of genes. -/
def add_to_bucket : List (String × List TrioGenotypes) → String → TrioGenotypes →
    List (String × List TrioGenotypes)
  | [], g, v => [(g, [v])]
  | (g', vs) :: rest, g, v =>
      if g' = g then (g', vs ++ [v]) :: rest else (g', vs) :: add_to_bucket rest g v

/-- Modelled from the spec: `Filter.create_gene_dict` groups variants by the
gene symbols they overlap; gene symbols are deduplicated within a variant
and variants lacking any gene symbol are excluded. -/
def Filter.create_gene_dict (_cfg : Filter) (variants : List TrioGenotypes) :
    List (String × List TrioGenotypes) :=
  variants.foldl
    (fun acc v =>
      ((v.child.genes.filter (fun g => g != "")).dedup).foldl
        (fun acc2 g => add_to_bucket acc2 g v) acc)
    []

/-- Variant identity for deduplication: chromosome, position and alleles. -/
def get_key (t : TrioGenotypes) : String × Nat × String × String :=
  (t.chrom, t.pos, t.child.ref, t.child.alts)

/-- Lexicographic comparison of character lists by code point, the order
Python's `sorted` uses on strings. -/
def lexLe : List Char → List Char → Bool
  | [], _ => true
  | _ :: _, [] => false
  | a :: as, b :: bs =>
      if a.toNat < b.toNat then true
      else if b.toNat < a.toNat then false
      else lexLe as bs

/-- Lexicographic order on strings. -/
def strLe (a b : String) : Prop := lexLe a.data b.data = true

instance : DecidableRel strLe := fun _ _ => inferInstanceAs (Decidable (_ = true))

/-- Sorted, duplicate-free normal form of a label list. -/
def sortDedup (l : List String) : List String :=
  List.insertionSort strLe l.dedup

/-- Merge a later filter result into the record accumulated for its variant:
the three label lists become sorted, duplicate-free unions; the subject of
the first occurrence is kept. -/
def mergeRec (a r : VarRec) : VarRec :=
  ⟨a.subject, sortDedup (a.checks ++ r.checks), sortDedup (a.models ++ r.models),
    sortDedup (a.genes ++ r.genes)⟩

/-- Insert one filter result into the accumulated records: merged into the
record with the same variant key when one exists, appended otherwise. -/
def insertRec : List VarRec → VarRec → List VarRec
  | [], r => [r]
  | a :: rest, r =>
      if get_key a.subject = get_key r.subject then mergeRec a r :: rest
      else a :: insertRec rest r

/-- Modelled from the spec: `Filter.exclude_duplicates` merges the filter
results so that each distinct variant keeps one record carrying the union
of the check categories, inheritance models and gene symbols under which it
passed. -/
def exclude_duplicates (l : List VarRec) : List VarRec := l.foldl insertRec []

/-- The variant keys of a record list, in order. -/
def keysR (l : List VarRec) : List (String × Nat × String × String) :=
  l.map (fun r => get_key r.subject)

/-- A filter-result record as the spec compares them: variant identity
(chromosome, position, alleles) together with the three label lists. -/
def projRec (r : VarRec) :
    (String × Nat × String × String) × List String × List String × List String :=
  (get_key r.subject, r.checks, r.models, r.genes)

/-- Modelled from the spec: `Filter.analyse_trio` for one family's current
child.  Loading and annotating the child's variants is the role of the
external VCF collaborator, so the variant list is an argument; the engine
groups them by gene, runs the inheritance evaluator per gene, concatenates
and deduplicates once. -/
def Filter.analyse_trio (cfg : Filter) (fam : Family) (variants : List TrioGenotypes) :
    List VarRec :=
  exclude_duplicates
    ((cfg.create_gene_dict variants).flatMap
      (fun gv => cfg.find_variants gv.2 (some gv.1) fam))

/-- Accumulate the decimal digits of a character list into a number. -/
def natOfDigits : List Char → Nat → Nat
  | [], acc => acc
  | c :: cs, acc => natOfDigits cs (acc * 10 + (c.toNat - 48))

/-- Parse a decimal string into a number. -/
def parse_nat (s : String) : Nat := natOfDigits s.data 0

/-- Whether a string holds a ':' character. -/
def hasColon (s : String) : Bool := s.data.contains ':'

/-- Modelled from the spec: one data row of the known-gene table
(`clinicalfilter/load_files.py` is not among the sources), with the fields
already resolved through the header-position lookup. -/
structure GeneRow where
  gene : String
  chrom : String
  start : String
  stop : String
  status : String
  mode : String
  mech : String
  deriving DecidableEq

/-- Modelled from the spec: one gene knowledge entry: location, accepted
clinical-validity statuses and the inheritance map from model name to
allelic-mechanism tags. -/
structure GeneEntry where
  chrom : String
  start : Nat
  stop : Nat
  status : List String
  inh : List (String × List String)
  deriving DecidableEq

/-- Modelled from the spec: the fixed accepted set of clinical-validity
statuses; rows with any other status (such as "Possible DD Gene") are
dropped entirely. -/
def accepted_statuses : List String :=
  ["Confirmed DD Gene", "Probable DD Gene", "Both DD and IF"]

/-- Duplicate-free union of two label lists, keeping first-list order. -/
def unionL (a b : List String) : List String :=
  a ++ b.filter (fun x => !(a.contains x))

/-- Modelled from the spec: the inheritance-map entries contributed by one
row; a raw "Both" mode expands into Biallelic, Monoallelic and Both entries
carrying the same mechanism. -/
def mode_entries (mode mech : String) : List (String × List String) :=
  if mode = "Both" then
    [("Biallelic", [mech]), ("Monoallelic", [mech]), ("Both", [mech])]
  else [(mode, [mech])]

/-- Insert one inheritance-map entry, unioning the mechanism tags when the
model name is already present. -/
def insert_mode : List (String × List String) → String × List String →
    List (String × List String)
  | [], me => [me]
  | (m, ms) :: rest, me =>
      if m = me.1 then (m, unionL ms me.2) :: rest else (m, ms) :: insert_mode rest me

/-- Modelled from the spec: `parse_gene_line` builds the knowledge entry
contributed by one row. -/
def parse_gene_line (row : GeneRow) : String × GeneEntry :=
  (row.gene,
    { chrom := row.chrom, start := parse_nat row.start,
      stop := parse_nat row.stop, status := [row.status],
      inh := (mode_entries row.mode row.mech).foldl insert_mode [] })

/-- Merge one further row into an existing entry for the same gene: statuses
and inheritance modes are unioned. -/
def merge_entry (e : GeneEntry) (row : GeneRow) : GeneEntry :=
  { e with
      status := unionL e.status [row.status],
      inh := (mode_entries row.mode row.mech).foldl insert_mode e.inh }

/-- Insert one accepted row into the gene mapping, merging with an existing
entry for the same gene symbol. -/
def insert_gene_row : List (String × GeneEntry) → GeneRow → List (String × GeneEntry)
  | [], row => [parse_gene_line row]
  | (g, e) :: rest, row =>
      if g = row.gene then (g, merge_entry e row) :: rest
      else (g, e) :: insert_gene_row rest row

/-- Add one table row to the gene mapping: rows whose status is outside the
accepted set are dropped entirely. -/
def add_gene_row (acc : List (String × GeneEntry)) (row : GeneRow) :
    List (String × GeneEntry) :=
  if accepted_statuses.contains row.status then insert_gene_row acc row else acc

/-- Modelled from the spec: `open_known_genes` builds the gene knowledge
base from the table's data rows and raises a `ValueError` when the load
yields zero genes. -/
def open_known_genes (rows : List GeneRow) :
    Except String (List (String × GeneEntry)) :=
  if (rows.foldl add_gene_row []).isEmpty then
    .error "No genes found in the file, check the line endings"
  else .ok (rows.foldl add_gene_row [])

/-- Last-wins insertion of a key/value pair, keeping the key's position. -/
def upsert : List (String × String) → String → String → List (String × String)
  | [], k, v => [(k, v)]
  | (k', v') :: rest, k, v =>
      if k' = k then (k', v) :: rest else (k', v') :: upsert rest k v

/-- Modelled from the spec: `create_person_ID_mapper` builds the sample-id
to alternate-id mapping from the table's lines (the header line included),
skipping every line whose alternate id holds a ':' (parental alias rows). -/
def create_person_ID_mapper (rows : List (String × String)) : List (String × String) :=
  rows.foldl
    (fun acc kv => if hasColon kv.2 then acc else upsert acc kv.1 kv.2) []

/-! Concrete fixtures mirroring the repository's test suite. -/

/-- Modelled from the spec: the `create_variant` helper of `tests/utils.py`
(not among the sources): a trio with a heterozygous de novo child call
(`PP_DNM` 1) and homozygous-reference parents. -/
def create_variant (child_gender : String) (cqs genes : List String)
    (chrom : String) (pos : Nat) : TrioGenotypes :=
  ⟨chrom, pos,
    ⟨chrom, pos, "A", "G", Geno.het, child_gender, true, some 1, genes, cqs⟩,
    ⟨chrom, pos, "A", "G", Geno.homRef, "F", false, none, genes, cqs⟩,
    ⟨chrom, pos, "A", "G", Geno.homRef, "M", false, none, genes, cqs⟩⟩

/-- Variant in genes TEST1 and TEST2, both missense. -/
def snv1 : TrioGenotypes :=
  create_variant "F" ["missense_variant", "missense_variant"] ["TEST1", "TEST2"] "1" 150

/-- Variant in OTHER1 (missense) and OTHER2 (synonymous). -/
def snv2 : TrioGenotypes :=
  create_variant "F" ["missense_variant", "synonymous_variant"] ["OTHER1", "OTHER2"] "1" 150

/-- Variant on chromosome 2 in gene OTHER1. -/
def snv2b : TrioGenotypes :=
  create_variant "F" ["missense_variant"] ["OTHER1"] "2" 150

/-- Variant without any gene annotation. -/
def snv3 : TrioGenotypes := create_variant "F" ["missense_variant"] [] "1" 150

/-- Variant on the X chromosome in gene TESTX. -/
def snv4 : TrioGenotypes := create_variant "F" ["missense_variant"] ["TESTX"] "X" 150

/-- The trio family of `test_find_variants`: affected female child,
unaffected parents. -/
def fam1 : Family :=
  { family_id := "famID",
    children := [⟨"famID", "child_id", "dad_id", "mom_id", "f", "2", "/vcf/path", false⟩],
    mother := some ⟨"famID", "mom_id", "0", "0", "f", "1", "/vcf/path", false⟩,
    father := some ⟨"famID", "dad_id", "0", "0", "m", "1", "/vcf/path", false⟩,
    child := some ⟨"famID", "child_id", "dad_id", "mom_id", "f", "2", "/vcf/path", false⟩ }

/-- Filter configuration without a knowledge base. -/
def cfgNone : Filter := ⟨none, mkRat 9 10⟩

/-- Filter configuration with the knowledge base of `test_find_variants`. -/
def cfgKB : Filter :=
  ⟨some [("TEST1", ["Monoallelic"]), ("OTHER1", ["Monoallelic"]),
    ("OTHER2", ["Monoallelic"]), ("TESTX", ["X-linked dominant"])], mkRat 9 10⟩

/-- The child's site record of `test_analyse_trio`: heterozygous de novo
missense call in ARID1B with `PP_DNM` 1. -/
def childA : SNV :=
  ⟨"1", 1, "G", "T", Geno.het, "female", true, some 1, ["ARID1B"], ["missense_variant"]⟩

/-- The mother's homozygous-reference record at the same site. -/
def momA : SNV :=
  ⟨"1", 1, "G", "T", Geno.homRef, "female", false, none, ["ARID1B"], ["missense_variant"]⟩

/-- The father's homozygous-reference record at the same site. -/
def dadA : SNV :=
  ⟨"1", 1, "G", "T", Geno.homRef, "male", false, none, ["ARID1B"], ["missense_variant"]⟩

/-- The trio's genotypes at the ARID1B site of `test_analyse_trio`. -/
def trioA : TrioGenotypes := ⟨"1", 1, childA, momA, dadA⟩

/-- The family of `test_analyse_trio`: affected female child, unaffected
parents. -/
def famA : Family :=
  { family_id := "fam01",
    children := [⟨"fam01", "child", "dad", "mom", "female", "2", "child.vcf", false⟩],
    mother := some ⟨"fam01", "mom", "0", "0", "female", "1", "mom.vcf", false⟩,
    father := some ⟨"fam01", "dad", "0", "0", "male", "1", "dad.vcf", false⟩,
    child := some ⟨"fam01", "child", "dad", "mom", "female", "2", "child.vcf", false⟩ }

/-- A fresh family without members, as built at the start of the family
tests. -/
def famEmpty : Family := ⟨"fam_ID", [], none, none, none⟩

/-- A family with two children, neither analysed yet. -/
def famTwo : Family :=
  ⟨"fam_ID",
    [⟨"fam_ID", "child1", "dad", "mom", "male", "2", "/home/child1.vcf", false⟩,
     ⟨"fam_ID", "child2", "dad", "mom", "female", "2", "/home/child2.vcf", false⟩],
    none, none, none⟩

/-- The rejected-status row of `test_open_known_genes_wrong_status`. -/
def rowPossible : GeneRow :=
  ⟨"TEST", "1", "1000", "2000", "Possible DD Gene", "Monoallelic", "Loss-of-function"⟩

/-- The accepted-status row of `test_open_known_genes_wrong_status`. -/
def rowConfirmed : GeneRow :=
  ⟨"TEST2", "1", "3000", "4000", "Confirmed DD Gene", "Monoallelic", "Loss-of-function"⟩

/-- The knowledge entry built from the accepted row. -/
def entryConfirmed : GeneEntry :=
  ⟨"1", 3000, 4000, ["Confirmed DD Gene"], [("Monoallelic", ["Loss-of-function"])]⟩

/-- The id-mapper table of `test_create_person_ID_mapper_dups_and_parents`,
lines already split at the tab: the header line, two ordinary rows, one
duplicated row and two parental alias rows. -/
def idRows : List (String × String) :=
  [("sample_id", "alt_id"), ("sample_01", "decipher55"),
   ("sample_02", "decipher77"), ("sample_02", "decipher77"),
   ("sample_03", "decipher55:pat"), ("sample_04", "decipher77:mat")]

/-! Order-theoretic facts about the lexicographic string order. -/

/-- Characters with equal code points are equal. -/
theorem char_toNat_inj {a b : Char} (h : a.toNat = b.toNat) : a = b :=
  Char.eq_of_val_eq (UInt32.ext h)

/-- The lexicographic comparison is total. -/
theorem lexLe_total : ∀ as bs, lexLe as bs = true ∨ lexLe bs as = true := by
  intro as
  induction as with
  | nil => intro bs; left; rfl
  | cons a as ih =>
      intro bs
      cases bs with
      | nil => right; rfl
      | cons b bs =>
          by_cases h1 : a.toNat < b.toNat
          · left; simp [lexLe, h1]
          · by_cases h2 : b.toNat < a.toNat
            · right; simp [lexLe, h1, h2]
            · have := ih bs
              simp [lexLe, h1, h2, this]

/-- The lexicographic comparison is transitive. -/
theorem lexLe_trans : ∀ as bs cs, lexLe as bs = true → lexLe bs cs = true →
    lexLe as cs = true := by
  intro as
  induction as with
  | nil => intro bs cs _ _; rfl
  | cons a as ih =>
      intro bs cs h1 h2
      cases bs with
      | nil => simp [lexLe] at h1
      | cons b bs =>
          cases cs with
          | nil => simp [lexLe] at h2
          | cons c cs =>
              by_cases hab : a.toNat < b.toNat
              · by_cases hbc : b.toNat < c.toNat
                · have hac : a.toNat < c.toNat := Nat.lt_trans hab hbc
                  simp [lexLe, hac]
                · by_cases hcb : c.toNat < b.toNat
                  · simp [lexLe, hbc, hcb] at h2
                  · have hac : a.toNat < c.toNat := by omega
                    simp [lexLe, hac]
              · by_cases hba : b.toNat < a.toNat
                · simp [lexLe, hab, hba] at h1
                · simp only [lexLe, if_neg hab, if_neg hba] at h1
                  by_cases hbc : b.toNat < c.toNat
                  · have hac : a.toNat < c.toNat := by omega
                    simp [lexLe, hac]
                  · by_cases hcb : c.toNat < b.toNat
                    · simp [lexLe, hbc, hcb] at h2
                    · simp only [lexLe, if_neg hbc, if_neg hcb] at h2
                      have hac1 : ¬ a.toNat < c.toNat := by omega
                      have hac2 : ¬ c.toNat < a.toNat := by omega
                      simp only [lexLe, if_neg hac1, if_neg hac2]
                      exact ih bs cs h1 h2

/-- The lexicographic comparison is antisymmetric. -/
theorem lexLe_antisymm : ∀ as bs, lexLe as bs = true → lexLe bs as = true → as = bs := by
  intro as
  induction as with
  | nil =>
      intro bs h1 h2
      cases bs with
      | nil => rfl
      | cons b bs => simp [lexLe] at h2
  | cons a as ih =>
      intro bs h1 h2
      cases bs with
      | nil => simp [lexLe] at h1
      | cons b bs =>
          by_cases hab : a.toNat < b.toNat
          · have hba : ¬ b.toNat < a.toNat := by omega
            simp [lexLe, hab, hba] at h2
          · by_cases hba : b.toNat < a.toNat
            · simp [lexLe, hab, hba] at h1
            · have heq : a = b := char_toNat_inj (by omega)
              simp only [lexLe, if_neg hab, if_neg hba] at h1 h2
              rw [heq, ih bs h1 h2]

/-- Totality of the string order. -/
theorem strLe_total : ∀ a b : String, strLe a b ∨ strLe b a := by
  intro a b; exact lexLe_total a.data b.data

/-- Transitivity of the string order. -/
theorem strLe_trans : ∀ a b c : String, strLe a b → strLe b c → strLe a c := by
  intro a b c; exact lexLe_trans a.data b.data c.data

/-- Antisymmetry of the string order. -/
theorem strLe_antisymm : ∀ a b : String, strLe a b → strLe b a → a = b := by
  intro a b h1 h2
  have hd : a.data = b.data := lexLe_antisymm a.data b.data h1 h2
  cases a
  cases b
  exact congrArg String.mk hd

instance : IsTotal String strLe := ⟨strLe_total⟩

instance : IsTrans String strLe := ⟨strLe_trans⟩

instance : IsAntisymm String strLe := ⟨strLe_antisymm⟩

/-! Properties of the sorted, duplicate-free normal form. -/

/-- Membership in the normal form agrees with membership in the list. -/
theorem mem_sortDedup {a : String} {l : List String} : a ∈ sortDedup l ↔ a ∈ l := by
  unfold sortDedup
  rw [(List.perm_insertionSort strLe l.dedup).mem_iff, List.mem_dedup]

/-- The normal form is sorted. -/
theorem sorted_sortDedup (l : List String) : List.Sorted strLe (sortDedup l) :=
  List.sorted_insertionSort strLe l.dedup

/-- The normal form has no duplicates. -/
theorem nodup_sortDedup (l : List String) : (sortDedup l).Nodup :=
  (List.perm_insertionSort strLe l.dedup).symm.nodup (List.nodup_dedup l)

/-- Lists with the same members share their normal form. -/
theorem sortDedup_congr {l₁ l₂ : List String} (h : ∀ a, a ∈ l₁ ↔ a ∈ l₂) :
    sortDedup l₁ = sortDedup l₂ := by
  refine List.eq_of_perm_of_sorted ?_ (sorted_sortDedup l₁) (sorted_sortDedup l₂)
  refine (List.perm_ext_iff_of_nodup (nodup_sortDedup l₁) (nodup_sortDedup l₂)).mpr ?_
  intro a
  rw [mem_sortDedup, mem_sortDedup]
  exact h a

/-- Normalising an already-normalised prefix changes nothing. -/
theorem sortDedup_sortDedup_append (a b : List String) :
    sortDedup (sortDedup a ++ b) = sortDedup (a ++ b) := by
  refine sortDedup_congr ?_
  intro x
  simp [mem_sortDedup]

/-- The normal form ignores the order of appended lists. -/
theorem sortDedup_append_comm (a b : List String) :
    sortDedup (a ++ b) = sortDedup (b ++ a) := by
  refine sortDedup_congr ?_
  intro x
  simp
  exact Or.comm

/-- Appending a list to itself does not change the normal form. -/
theorem sortDedup_append_self (a : List String) : sortDedup (a ++ a) = sortDedup a := by
  refine sortDedup_congr ?_
  intro x
  simp

/-! Structural lemmas about the result reducer. -/

/-- The keys of an appended record list. -/
theorem keysR_append (a b : List VarRec) : keysR (a ++ b) = keysR a ++ keysR b := by
  simp [keysR]

/-- Inserting into the empty accumulator. -/
theorem insertRec_nil (r : VarRec) : insertRec [] r = [r] := rfl

/-- Inserting merges with a head record of equal key. -/
theorem insertRec_cons_pos (a : VarRec) (rest : List VarRec) (r : VarRec)
    (h : get_key a.subject = get_key r.subject) :
    insertRec (a :: rest) r = mergeRec a r :: rest := by
  simp [insertRec, h]

/-- Inserting passes over a head record of different key. -/
theorem insertRec_cons_neg (a : VarRec) (rest : List VarRec) (r : VarRec)
    (h : ¬ get_key a.subject = get_key r.subject) :
    insertRec (a :: rest) r = a :: insertRec rest r := by
  simp [insertRec, h]

/-- Inserting a record with a fresh variant key appends it. -/
theorem insertRec_of_not_mem (acc : List VarRec) (r : VarRec)
    (h : get_key r.subject ∉ keysR acc) : insertRec acc r = acc ++ [r] := by
  induction acc with
  | nil => rfl
  | cons a rest ih =>
      have h1 : ¬ get_key a.subject = get_key r.subject := by
        intro hc
        exact h (by simp [keysR, hc])
      have h2 : get_key r.subject ∉ keysR rest := by
        intro hc
        exact h (by simp [keysR] at hc ⊢; exact Or.inr hc)
      simp [insertRec, h1, ih h2]

/-- Inserting a record whose variant key is present merges it into the first
record with that key. -/
theorem insertRec_split (acc : List VarRec) (r : VarRec)
    (h : get_key r.subject ∈ keysR acc) :
    ∃ l₁ e l₂, acc = l₁ ++ e :: l₂ ∧ get_key e.subject = get_key r.subject ∧
      get_key r.subject ∉ keysR l₁ ∧ insertRec acc r = l₁ ++ mergeRec e r :: l₂ := by
  induction acc with
  | nil => simp [keysR] at h
  | cons a rest ih =>
      by_cases h1 : get_key a.subject = get_key r.subject
      · exact ⟨[], a, rest, by simp, h1, by simp [keysR], by simp [insertRec, h1]⟩
      · have h2 : get_key r.subject ∈ keysR rest := by
          simp [keysR] at h
          rcases h with h | h
          · exact absurd h.symm h1
          · simpa [keysR] using h
        obtain ⟨l₁, e, l₂, hacc, he, hnot, hins⟩ := ih h2
        refine ⟨a :: l₁, e, l₂, by simp [hacc], he, ?_, ?_⟩
        · simp [keysR]
          exact ⟨fun hc => h1 hc.symm, by simpa [keysR] using hnot⟩
        · simp [insertRec, h1, hins]

/-- Merging preserves the variant key of the accumulated record. -/
theorem get_key_mergeRec (a r : VarRec) :
    get_key (mergeRec a r).subject = get_key a.subject := rfl

/-- Inserting a record with a present key leaves the key list unchanged. -/
theorem keysR_insertRec_of_mem (acc : List VarRec) (r : VarRec)
    (h : get_key r.subject ∈ keysR acc) : keysR (insertRec acc r) = keysR acc := by
  obtain ⟨l₁, e, l₂, hacc, he, _, hins⟩ := insertRec_split acc r h
  rw [hins, hacc]
  simp [keysR_append, keysR, get_key_mergeRec]

/-- Inserting preserves distinctness of the variant keys. -/
theorem nodup_keysR_insertRec (acc : List VarRec) (r : VarRec)
    (h : (keysR acc).Nodup) : (keysR (insertRec acc r)).Nodup := by
  by_cases hm : get_key r.subject ∈ keysR acc
  · rw [keysR_insertRec_of_mem acc r hm]
    exact h
  · rw [insertRec_of_not_mem acc r hm, keysR_append]
    rw [List.nodup_append]
    refine ⟨h, by simp [keysR], ?_⟩
    intro k hk hk2
    have : k = get_key r.subject := by simpa [keysR] using hk2
    exact hm (this ▸ hk)

/-- Folding the reducer preserves distinctness of the variant keys. -/
theorem nodup_keysR_foldl (l : List VarRec) :
    ∀ acc, (keysR acc).Nodup → (keysR (l.foldl insertRec acc)).Nodup := by
  induction l with
  | nil => intro acc h; exact h
  | cons x rest ih =>
      intro acc h
      exact ih (insertRec acc x) (nodup_keysR_insertRec acc x h)

/-- The reduced output has pairwise distinct variant keys. -/
theorem nodup_keysR_exclude_duplicates (l : List VarRec) :
    (keysR (exclude_duplicates l)).Nodup :=
  nodup_keysR_foldl l [] (by simp [keysR])

/-- Folding the reducer over records with fresh distinct keys appends them. -/
theorem foldl_insertRec_of_nodup (l : List VarRec) :
    ∀ acc, (keysR (acc ++ l)).Nodup → l.foldl insertRec acc = acc ++ l := by
  induction l with
  | nil => intro acc _; simp
  | cons x rest ih =>
      intro acc h
      have hx : get_key x.subject ∉ keysR acc := by
        rw [keysR_append] at h
        have := (List.nodup_append.mp h).2.2
        intro hc
        exact this hc (by simp [keysR])
      have hstep : insertRec acc x = acc ++ [x] := insertRec_of_not_mem acc x hx
      have hrec : rest.foldl insertRec (acc ++ [x]) = (acc ++ [x]) ++ rest := by
        refine ih (acc ++ [x]) ?_
        simpa [keysR_append, List.append_assoc] using h
      simp only [List.foldl_cons, hstep, hrec, List.append_assoc, List.cons_append,
        List.nil_append]

/-! Permutation invariance of the result reducer. -/

/-- The key list is the first projection of the record projections. -/
theorem keysR_eq_map_proj (l : List VarRec) : keysR l = (l.map projRec).map Prod.fst := by
  simp only [keysR, List.map_map]
  rfl

/-- The projection of a merged record, spelt out. -/
theorem projRec_mergeRec (a r : VarRec) :
    projRec (mergeRec a r) = (get_key a.subject,
      sortDedup (a.checks ++ r.checks), sortDedup (a.models ++ r.models),
      sortDedup (a.genes ++ r.genes)) := rfl

/-- Records with equal projections produce merges with equal projections. -/
theorem projRec_mergeRec_congr {a b : VarRec} (r : VarRec) (h : projRec a = projRec b) :
    projRec (mergeRec a r) = projRec (mergeRec b r) := by
  have h1 : get_key a.subject = get_key b.subject := congrArg Prod.fst h
  have h2 : a.checks = b.checks := congrArg (fun p => p.2.1) h
  have h3 : a.models = b.models := congrArg (fun p => p.2.2.1) h
  have h4 : a.genes = b.genes := congrArg (fun p => p.2.2.2) h
  rw [projRec_mergeRec, projRec_mergeRec, h1, h2, h3, h4]

/-- Merging two records of equal key commutes at the projection level. -/
theorem projRec_mergeRec_comm (r s : VarRec)
    (h : get_key r.subject = get_key s.subject) :
    projRec (mergeRec r s) = projRec (mergeRec s r) := by
  rw [projRec_mergeRec, projRec_mergeRec, h]
  rw [sortDedup_append_comm r.checks s.checks, sortDedup_append_comm r.models s.models,
    sortDedup_append_comm r.genes s.genes]

/-- Two successive merges into the same record commute. -/
theorem mergeRec_swap (a r s : VarRec) :
    mergeRec (mergeRec a r) s = mergeRec (mergeRec a s) r := by
  simp only [mergeRec, VarRec.mk.injEq, true_and]
  refine ⟨?_, ?_, ?_⟩ <;>
    · apply sortDedup_congr
      intro x
      simp only [List.mem_append, mem_sortDedup]
      tauto

/-- Inserting the same record into lists with permuted projections yields
permuted projections. -/
theorem insertRec_proj_perm (r : VarRec) (acc₁ acc₂ : List VarRec)
    (hn : (keysR acc₁).Nodup)
    (hp : (acc₁.map projRec).Perm (acc₂.map projRec)) :
    ((insertRec acc₁ r).map projRec).Perm ((insertRec acc₂ r).map projRec) := by
  have hkeys : (keysR acc₁).Perm (keysR acc₂) := by
    rw [keysR_eq_map_proj, keysR_eq_map_proj]
    exact hp.map Prod.fst
  have hn₂ : (keysR acc₂).Nodup := hkeys.nodup hn
  by_cases hm : get_key r.subject ∈ keysR acc₁
  · have hm₂ : get_key r.subject ∈ keysR acc₂ := hkeys.mem_iff.mp hm
    obtain ⟨l₁, e, l₂, hacc₁, he₁, hnl₁, hins₁⟩ := insertRec_split acc₁ r hm
    obtain ⟨m₁, f, m₂, hacc₂, he₂, hnm₁, hins₂⟩ := insertRec_split acc₂ r hm₂
    have hmidl : (acc₁.map projRec).Perm
        (projRec e :: (l₁.map projRec ++ l₂.map projRec)) := by
      rw [hacc₁]
      simp only [List.map_append, List.map_cons]
      exact List.perm_middle
    have hmidm : (acc₂.map projRec).Perm
        (projRec f :: (m₁.map projRec ++ m₂.map projRec)) := by
      rw [hacc₂]
      simp only [List.map_append, List.map_cons]
      exact List.perm_middle
    have hnm₂ : get_key r.subject ∉ keysR m₂ := by
      have hh := hn₂
      rw [hacc₂, keysR_append] at hh
      have h2 : (keysR m₁ ++ get_key f.subject :: keysR m₂).Nodup := by
        simpa [keysR] using hh
      have h3 := (List.nodup_cons.mp (List.nodup_middle.mp h2)).1
      rw [he₂] at h3
      intro hc
      exact h3 (List.mem_append.mpr (Or.inr hc))
    have hef : projRec e = projRec f := by
      have hin : projRec e ∈ acc₂.map projRec :=
        hp.mem_iff.mp (by rw [hacc₁]; simp)
      rw [hacc₂] at hin
      simp only [List.map_append, List.map_cons, List.mem_append, List.mem_cons] at hin
      have hkeye : (projRec e).1 = get_key r.subject := he₁
      rcases hin with hin | hin | hin
      · exfalso
        apply hnm₁
        rw [keysR_eq_map_proj]
        rw [← hkeye]
        exact List.mem_map_of_mem Prod.fst hin
      · exact hin
      · exfalso
        apply hnm₂
        rw [keysR_eq_map_proj]
        rw [← hkeye]
        exact List.mem_map_of_mem Prod.fst hin
    have hrest : (l₁.map projRec ++ l₂.map projRec).Perm
        (m₁.map projRec ++ m₂.map projRec) := by
      have hch : (projRec e :: (l₁.map projRec ++ l₂.map projRec)).Perm
          (projRec e :: (m₁.map projRec ++ m₂.map projRec)) := by
        have h0 := (hmidl.symm.trans hp).trans hmidm
        rw [← hef] at h0
        exact h0
      exact hch.cons_inv
    rw [hins₁, hins₂]
    simp only [List.map_append, List.map_cons]
    refine List.Perm.trans List.perm_middle (List.Perm.trans ?_ List.perm_middle.symm)
    rw [projRec_mergeRec_congr r hef]
    exact hrest.cons _
  · have hm₂ : get_key r.subject ∉ keysR acc₂ := fun hc => hm (hkeys.mem_iff.mpr hc)
    rw [insertRec_of_not_mem acc₁ r hm, insertRec_of_not_mem acc₂ r hm₂]
    simp only [List.map_append]
    exact hp.append (List.Perm.refl _)

/-- Swapping two consecutive insertions permutes the projections only. -/
theorem insertRec_swap_perm (acc : List VarRec) (r s : VarRec) :
    ((insertRec (insertRec acc r) s).map projRec).Perm
      ((insertRec (insertRec acc s) r).map projRec) := by
  by_cases hrs : get_key r.subject = get_key s.subject
  · induction acc with
    | nil =>
        have h1 : insertRec (insertRec [] r) s = [mergeRec r s] := by
          rw [insertRec_nil, insertRec_cons_pos _ _ _ hrs]
        have h2 : insertRec (insertRec [] s) r = [mergeRec s r] := by
          rw [insertRec_nil, insertRec_cons_pos _ _ _ hrs.symm]
        rw [h1, h2, List.map_singleton, List.map_singleton,
          projRec_mergeRec_comm r s hrs]
    | cons a rest ih =>
        by_cases ha : get_key a.subject = get_key r.subject
        · have ha2 : get_key a.subject = get_key s.subject := ha.trans hrs
          have h1 : insertRec (insertRec (a :: rest) r) s =
              mergeRec (mergeRec a r) s :: rest := by
            rw [insertRec_cons_pos _ _ _ ha,
              insertRec_cons_pos _ _ _ (by rw [get_key_mergeRec]; exact ha2)]
          have h2 : insertRec (insertRec (a :: rest) s) r =
              mergeRec (mergeRec a s) r :: rest := by
            rw [insertRec_cons_pos _ _ _ ha2,
              insertRec_cons_pos _ _ _ (by rw [get_key_mergeRec]; exact ha)]
          rw [h1, h2, mergeRec_swap]
        · have ha2 : ¬ get_key a.subject = get_key s.subject := fun hc => ha (hc.trans hrs.symm)
          have h1 : insertRec (insertRec (a :: rest) r) s =
              a :: insertRec (insertRec rest r) s := by
            rw [insertRec_cons_neg _ _ _ ha, insertRec_cons_neg _ _ _ ha2]
          have h2 : insertRec (insertRec (a :: rest) s) r =
              a :: insertRec (insertRec rest s) r := by
            rw [insertRec_cons_neg _ _ _ ha2, insertRec_cons_neg _ _ _ ha]
          rw [h1, h2, List.map_cons, List.map_cons]
          exact ih.cons _
  · induction acc with
    | nil =>
        have h1 : insertRec (insertRec [] r) s = [r, s] := by
          rw [insertRec_nil, insertRec_cons_neg _ _ _ hrs, insertRec_nil]
        have h2 : insertRec (insertRec [] s) r = [s, r] := by
          rw [insertRec_nil, insertRec_cons_neg _ _ _ (fun hc => hrs hc.symm), insertRec_nil]
        rw [h1, h2, List.map_cons, List.map_cons, List.map_cons, List.map_cons,
          List.map_nil]
        exact List.Perm.swap _ _ _
    | cons a rest ih =>
        by_cases har : get_key a.subject = get_key r.subject
        · have has : ¬ get_key a.subject = get_key s.subject := fun hc =>
            hrs (har.symm.trans hc)
          have h1 : insertRec (insertRec (a :: rest) r) s =
              mergeRec a r :: insertRec rest s := by
            rw [insertRec_cons_pos _ _ _ har,
              insertRec_cons_neg _ _ _ (by rw [get_key_mergeRec]; exact has)]
          have h2 : insertRec (insertRec (a :: rest) s) r =
              mergeRec a r :: insertRec rest s := by
            rw [insertRec_cons_neg _ _ _ has, insertRec_cons_pos _ _ _ har]
          rw [h1, h2]
        · by_cases has : get_key a.subject = get_key s.subject
          · have h1 : insertRec (insertRec (a :: rest) r) s =
                mergeRec a s :: insertRec rest r := by
              rw [insertRec_cons_neg _ _ _ har, insertRec_cons_pos _ _ _ has]
            have h2 : insertRec (insertRec (a :: rest) s) r =
                mergeRec a s :: insertRec rest r := by
              rw [insertRec_cons_pos _ _ _ has,
                insertRec_cons_neg _ _ _ (by rw [get_key_mergeRec]; exact har)]
            rw [h1, h2]
          · have h1 : insertRec (insertRec (a :: rest) r) s =
                a :: insertRec (insertRec rest r) s := by
              rw [insertRec_cons_neg _ _ _ har, insertRec_cons_neg _ _ _ has]
            have h2 : insertRec (insertRec (a :: rest) s) r =
                a :: insertRec (insertRec rest s) r := by
              rw [insertRec_cons_neg _ _ _ has, insertRec_cons_neg _ _ _ har]
            rw [h1, h2, List.map_cons, List.map_cons]
            exact ih.cons _

/-- Folding one list over accumulators with permuted projections yields
permuted projections. -/
theorem foldl_insertRec_proj_perm (l : List VarRec) :
    ∀ acc₁ acc₂, (keysR acc₁).Nodup →
      (acc₁.map projRec).Perm (acc₂.map projRec) →
      ((l.foldl insertRec acc₁).map projRec).Perm
        ((l.foldl insertRec acc₂).map projRec) := by
  induction l with
  | nil => intro acc₁ acc₂ _ hp; exact hp
  | cons x rest ih =>
      intro acc₁ acc₂ hn hp
      exact ih (insertRec acc₁ x) (insertRec acc₂ x)
        (nodup_keysR_insertRec acc₁ x hn) (insertRec_proj_perm x acc₁ acc₂ hn hp)

/-- Folding permuted lists over accumulators with permuted projections
yields permuted projections. -/
theorem foldl_insertRec_perm_invariant {l₁ l₂ : List VarRec} (h : l₁.Perm l₂) :
    ∀ acc₁ acc₂, (keysR acc₁).Nodup →
      (acc₁.map projRec).Perm (acc₂.map projRec) →
      ((l₁.foldl insertRec acc₁).map projRec).Perm
        ((l₂.foldl insertRec acc₂).map projRec) := by
  induction h with
  | nil => intro acc₁ acc₂ _ hp; exact hp
  | cons x h ih =>
      intro acc₁ acc₂ hn hp
      exact ih (insertRec acc₁ x) (insertRec acc₂ x)
        (nodup_keysR_insertRec acc₁ x hn) (insertRec_proj_perm x acc₁ acc₂ hn hp)
  | swap x y l =>
      intro acc₁ acc₂ hn hp
      simp only [List.foldl_cons]
      have step1 : ((l.foldl insertRec (insertRec (insertRec acc₁ y) x)).map projRec).Perm
          ((l.foldl insertRec (insertRec (insertRec acc₂ y) x)).map projRec) := by
        refine foldl_insertRec_proj_perm l _ _ ?_ ?_
        · exact nodup_keysR_insertRec _ x (nodup_keysR_insertRec acc₁ y hn)
        · exact insertRec_proj_perm x _ _ (nodup_keysR_insertRec acc₁ y hn)
            (insertRec_proj_perm y acc₁ acc₂ hn hp)
      have step2 : ((l.foldl insertRec (insertRec (insertRec acc₂ y) x)).map projRec).Perm
          ((l.foldl insertRec (insertRec (insertRec acc₂ x) y)).map projRec) := by
        refine foldl_insertRec_proj_perm l _ _ ?_ ?_
        · have hn₂ : (keysR acc₂).Nodup := by
            refine List.Perm.nodup ?_ hn
            rw [keysR_eq_map_proj, keysR_eq_map_proj]
            exact hp.map Prod.fst
          exact nodup_keysR_insertRec _ x (nodup_keysR_insertRec acc₂ y hn₂)
        · exact insertRec_swap_perm acc₂ y x
      exact step1.trans step2
  | trans h₁ h₂ ih₁ ih₂ =>
      intro acc₁ acc₂ hn hp
      have s1 := ih₁ acc₁ acc₁ hn (List.Perm.refl _)
      have s2 := ih₂ acc₁ acc₂ hn hp
      exact s1.trans s2

/-! Lemmas on the current-child protocol. -/

/-- Marking does not change the person ids. -/
theorem map_pid_markIf (x : String) (l : List Person) :
    (markIf x l).map Person.person_id = l.map Person.person_id := by
  induction l with
  | nil => rfl
  | cons c rest ih =>
      by_cases h : c.person_id = x <;> simp [markIf, h] <;>
        simpa [markIf] using ih

/-- Marking an id that no child carries changes nothing. -/
theorem markIf_of_not_mem (x : String) (l : List Person)
    (h : x ∉ l.map Person.person_id) : markIf x l = l := by
  induction l with
  | nil => rfl
  | cons c rest ih =>
      have h1 : ¬ c.person_id = x := by
        intro hc
        exact h (by simp [hc])
      have h2 : x ∉ rest.map Person.person_id := by
        intro hc
        exact h (by simp [hc])
      simp only [markIf, List.map_cons, if_neg h1]
      have := ih h2
      simp only [markIf] at this
      rw [this]

/-- Marking the first unexamined child lowers the unexamined count by one. -/
theorem countU_markIf (l : List Person) (c : Person)
    (hn : (l.map Person.person_id).Nodup)
    (hf : l.find? (fun p => !p.analysed) = some c) :
    countU (markIf c.person_id l) = countU l - 1 := by
  induction l with
  | nil => simp at hf
  | cons a rest ih =>
      by_cases hpa : (!a.analysed) = true
      · have hstep : List.find? (fun p => !p.analysed) (a :: rest) = some a :=
          List.find?_cons_of_pos rest hpa
        rw [hstep] at hf
        have hac : a = c := by
          injection hf
        subst hac
        have h0 : (a.person_id :: rest.map Person.person_id).Nodup := by simpa using hn
        have hnr : a.person_id ∉ rest.map Person.person_id := (List.nodup_cons.mp h0).1
        have hrest : markIf a.person_id rest = rest := markIf_of_not_mem _ _ hnr
        simp only [markIf, List.map_cons, if_pos rfl]
        have hrw : List.map (fun p => if p.person_id = a.person_id then
            { p with analysed := true } else p) rest = rest := by
          simpa [markIf] using hrest
        rw [hrw]
        simp [countU, List.filter, hpa]
      · have hstep : List.find? (fun p => !p.analysed) (a :: rest) =
            List.find? (fun p => !p.analysed) rest :=
          List.find?_cons_of_neg rest hpa
        rw [hstep] at hf
        have hcm : c ∈ rest := List.mem_of_find?_eq_some hf
        have h0 : (a.person_id :: rest.map Person.person_id).Nodup := by simpa using hn
        have hane : ¬ a.person_id = c.person_id := by
          have hnr : a.person_id ∉ rest.map Person.person_id := (List.nodup_cons.mp h0).1
          intro hc
          exact hnr (hc ▸ List.mem_map_of_mem Person.person_id hcm)
        have htail : (rest.map Person.person_id).Nodup := (List.nodup_cons.mp h0).2
        simp only [markIf, List.map_cons, if_neg hane]
        have := ih htail hf
        simp only [markIf] at this
        simp only [countU, List.filter, hpa] at this ⊢
        simpa [countU, List.filter_cons, hpa] using this

/-- A positive unexamined count produces a selected child. -/
theorem find_unanalysed_of_pos (l : List Person) (h : 0 < countU l) :
    ∃ c, l.find? (fun p => !p.analysed) = some c := by
  cases hf : l.find? (fun p => !p.analysed) with
  | some c => exact ⟨c, rfl⟩
  | none =>
      exfalso
      have hall := List.find?_eq_none.mp hf
      have : l.filter (fun c => !c.analysed) = [] := by
        rw [List.filter_eq_nil_iff]
        exact hall
      rw [countU, this] at h
      simp at h

/-- A zero unexamined count means no child is selected. -/
theorem find_unanalysed_of_zero (l : List Person) (h : countU l = 0) :
    l.find? (fun p => !p.analysed) = none := by
  rw [List.find?_eq_none]
  intro x hx hpx
  have : x ∈ l.filter (fun c => !c.analysed) := List.mem_filter.mpr ⟨hx, hpx⟩
  rw [List.length_eq_zero.mp h] at this
  simp at this

/-- One round with no unexamined child left only clears the pointer. -/
theorem analysis_round_of_none (fam : Family)
    (hf : fam.children.find? (fun c => !c.analysed) = none) :
    analysis_round fam = { fam with child := none } := by
  simp [analysis_round, Family.set_child, Family.set_child_examined, hf]

/-- One round with a selected child marks it and re-selects. -/
theorem analysis_round_of_some (fam : Family) (c : Person)
    (hf : fam.children.find? (fun c => !c.analysed) = some c) :
    analysis_round fam =
      Family.set_child { fam with children := markIf c.person_id fam.children } := by
  simp [analysis_round, Family.set_child, Family.set_child_examined, hf]

/-- After a round the pointer is exactly the next selection. -/
theorem analysis_round_child (fam : Family) :
    (analysis_round fam).child =
      (analysis_round fam).children.find? (fun c => !c.analysed) := by
  cases hf : fam.children.find? (fun c => !c.analysed) with
  | none =>
      rw [analysis_round_of_none fam hf]
      exact hf.symm
  | some c =>
      rw [analysis_round_of_some fam c hf]
      rfl

/-- One round decrements the unexamined count and keeps the id list. -/
theorem analysis_round_countU (fam : Family)
    (hn : (fam.children.map Person.person_id).Nodup)
    (h : 0 < countU fam.children) :
    countU (analysis_round fam).children = countU fam.children - 1 ∧
      (analysis_round fam).children.map Person.person_id =
        fam.children.map Person.person_id := by
  obtain ⟨c, hf⟩ := find_unanalysed_of_pos fam.children h
  rw [analysis_round_of_some fam c hf]
  exact ⟨countU_markIf fam.children c hn hf, map_pid_markIf _ _⟩

/-- Iterated rounds decrement the unexamined count stepwise. -/
theorem analysis_rounds_countU (k : Nat) :
    ∀ fam : Family, (fam.children.map Person.person_id).Nodup →
      k ≤ countU fam.children →
      countU (analysis_rounds k fam).children = countU fam.children - k ∧
        (analysis_rounds k fam).children.map Person.person_id =
          fam.children.map Person.person_id := by
  induction k with
  | zero => intro fam _ _; exact ⟨by simp [analysis_rounds], rfl⟩
  | succ k ih =>
      intro fam hn hk
      have hpos : 0 < countU fam.children := Nat.lt_of_lt_of_le (Nat.succ_pos k) hk
      obtain ⟨hc1, hc2⟩ := analysis_round_countU fam hn hpos
      have hn' : ((analysis_round fam).children.map Person.person_id).Nodup := by
        rw [hc2]; exact hn
      have hk' : k ≤ countU (analysis_round fam).children := by omega
      obtain ⟨hr1, hr2⟩ := ih (analysis_round fam) hn' hk'
      refine ⟨?_, ?_⟩
      · show countU (analysis_rounds k (analysis_round fam)).children = _
        rw [hr1, hc1]
        omega
      · show (analysis_rounds k (analysis_round fam)).children.map Person.person_id = _
        rw [hr2, hc2]

/-- After at least one round the pointer is exactly the next selection. -/
theorem analysis_rounds_child (k : Nat) (hk : 0 < k) :
    ∀ fam : Family, (analysis_rounds k fam).child =
      (analysis_rounds k fam).children.find? (fun c => !c.analysed) := by
  induction k with
  | zero => exact absurd hk (by simp)
  | succ k ih =>
      intro fam
      rcases Nat.eq_zero_or_pos k with h | h
      · subst h
        show (analysis_round fam).child = _
        exact analysis_round_child fam
      · show (analysis_rounds k (analysis_round fam)).child = _
        exact ih h (analysis_round fam)

/-! Lemmas on the gene-table and id-table loaders. -/

/-- A gene present after inserting a row was present before or is the
row's own gene. -/
theorem mem_insert_gene_row (acc : List (String × GeneEntry)) (row : GeneRow)
    (g : String) (e : GeneEntry) (h : (g, e) ∈ insert_gene_row acc row) :
    (∃ e', (g, e') ∈ acc) ∨ g = row.gene := by
  induction acc with
  | nil =>
      simp only [insert_gene_row, List.mem_singleton] at h
      right
      have := congrArg Prod.fst h
      simpa [parse_gene_line] using this
  | cons a rest ih =>
      obtain ⟨g1, e1⟩ := a
      by_cases hg : g1 = row.gene
      · rw [show insert_gene_row ((g1, e1) :: rest) row =
            (g1, merge_entry e1 row) :: rest from by simp [insert_gene_row, hg]] at h
        rcases List.mem_cons.mp h with h | h
        · left
          exact ⟨e1, by rw [show g = g1 from congrArg Prod.fst h]; simp⟩
        · left
          exact ⟨e, List.mem_cons_of_mem _ h⟩
      · rw [show insert_gene_row ((g1, e1) :: rest) row =
            (g1, e1) :: insert_gene_row rest row from by simp [insert_gene_row, hg]] at h
        rcases List.mem_cons.mp h with h | h
        · left
          exact ⟨e, by rw [h]; exact List.mem_cons_self _ rest⟩
        · rcases ih h with ⟨e', he'⟩ | h2
          · exact Or.inl ⟨e', List.mem_cons_of_mem _ he'⟩
          · exact Or.inr h2

/-- Every gene in the folded mapping came from an accepted row. -/
theorem mem_foldl_add_gene_row (rows : List GeneRow) :
    ∀ acc g e, (g, e) ∈ rows.foldl add_gene_row acc →
      (∃ e', (g, e') ∈ acc) ∨
        ∃ row ∈ rows, row.gene = g ∧ row.status ∈ accepted_statuses := by
  induction rows with
  | nil => intro acc g e h; exact Or.inl ⟨e, h⟩
  | cons row rest ih =>
      intro acc g e h
      rcases ih (add_gene_row acc row) g e h with ⟨e', he'⟩ | ⟨r, hr, hg, hs⟩
      · by_cases hst : accepted_statuses.contains row.status = true
        · rw [show add_gene_row acc row = insert_gene_row acc row from by
            unfold add_gene_row; rw [if_pos hst]] at he'
          rcases mem_insert_gene_row acc row g e' he' with h2 | h2
          · exact Or.inl h2
          · refine Or.inr ⟨row, List.mem_cons_self _ _, h2.symm, ?_⟩
            simpa using hst
        · rw [show add_gene_row acc row = acc from by
            unfold add_gene_row; rw [if_neg hst]] at he'
          exact Or.inl ⟨e', he'⟩
      · exact Or.inr ⟨r, List.mem_cons_of_mem _ hr, hg, hs⟩

/-- Rows whose status is rejected contribute nothing. -/
theorem foldl_add_gene_row_rejected (rows : List GeneRow)
    (h : ∀ row ∈ rows, row.status ∉ accepted_statuses) :
    ∀ acc, rows.foldl add_gene_row acc = acc := by
  induction rows with
  | nil => intro acc; rfl
  | cons row rest ih =>
      intro acc
      have h1 : add_gene_row acc row = acc := by
        have hm := h row (List.mem_cons_self _ _)
        unfold add_gene_row
        rw [if_neg (by simpa using hm)]
      rw [List.foldl_cons, h1]
      exact ih (fun r hr => h r (List.mem_cons_of_mem _ hr)) acc

/-- Upserting a colon-free value keeps every stored value colon-free. -/
theorem upsert_no_colon (acc : List (String × String)) (k v : String)
    (hacc : ∀ p ∈ acc, hasColon p.2 = false) (hv : hasColon v = false) :
    ∀ p ∈ upsert acc k v, hasColon p.2 = false := by
  induction acc with
  | nil =>
      intro p hp
      simp only [upsert, List.mem_singleton] at hp
      rw [hp]
      exact hv
  | cons a rest ih =>
      intro p hp
      obtain ⟨k1, v1⟩ := a
      by_cases hk : k1 = k
      · rw [show upsert ((k1, v1) :: rest) k v = (k1, v) :: rest from by
          simp [upsert, hk]] at hp
        rcases List.mem_cons.mp hp with h | h
        · rw [h]; exact hv
        · exact hacc p (List.mem_cons_of_mem _ h)
      · rw [show upsert ((k1, v1) :: rest) k v = (k1, v1) :: upsert rest k v from by
          simp [upsert, hk]] at hp
        rcases List.mem_cons.mp hp with h | h
        · rw [h]; exact hacc (k1, v1) (List.mem_cons_self _ _)
        · exact ih (fun q hq => hacc q (List.mem_cons_of_mem _ hq)) p h

/-- Every value stored by the id mapper is colon-free. -/
theorem mapper_fold_no_colon (rows : List (String × String)) :
    ∀ acc, (∀ p ∈ acc, hasColon p.2 = false) →
      ∀ p ∈ rows.foldl
        (fun acc kv => if hasColon kv.2 then acc else upsert acc kv.1 kv.2) acc,
        hasColon p.2 = false := by
  induction rows with
  | nil => intro acc hacc p hp; exact hacc p hp
  | cons kv rest ih =>
      intro acc hacc p hp
      by_cases hc : hasColon kv.2 = true
      · rw [List.foldl_cons, if_pos hc] at hp
        exact ih acc hacc p hp
      · rw [List.foldl_cons, if_neg hc] at hp
        refine ih (upsert acc kv.1 kv.2) ?_ p hp
        exact upsert_no_colon acc kv.1 kv.2 hacc (by simpa using hc)

/-! The claims. -/

/-- C1: `analyse_trio`, run on a family whose child's variant list holds one
site with child genotype 0/1 carrying a de novo annotation and `PP_DNM` 1,
both parents 0/0 at that site and gene ARID1B absent from the gene
knowledge base, returns exactly one record: the trio's `TrioGenotypes` for
that site with check-category list `["single_variant"]`, inheritance-model
list `["Monoallelic", "Mosaic"]` and gene list `["ARID1B"]`. -/
theorem analyse_trio_denovo_arid1b :
    cfgNone.analyse_trio famA [trioA] =
      [⟨trioA, ["single_variant"], ["Monoallelic", "Mosaic"], ["ARID1B"]⟩] := by
  decide

/-- C2: `exclude_duplicates` merges under two rules: entries with equal
variant and equal gene list merge into one record whose check list and
model list are the sorted duplicate-free unions with the gene list
unchanged; entries with equal variant, checks and models but different
genes merge into one record whose gene list is the sorted duplicate-free
union; records for distinct variants are never merged. -/
theorem exclude_duplicates_merge_rules :
    (∀ (v : TrioGenotypes) (c₁ m₁ c₂ m₂ g : List String), sortDedup g = g →
      exclude_duplicates [⟨v, c₁, m₁, g⟩, ⟨v, c₂, m₂, g⟩] =
        [⟨v, sortDedup (c₁ ++ c₂), sortDedup (m₁ ++ m₂), g⟩]) ∧
    (∀ (v : TrioGenotypes) (c m g₁ g₂ : List String),
      sortDedup c = c → sortDedup m = m →
      exclude_duplicates [⟨v, c, m, g₁⟩, ⟨v, c, m, g₂⟩] =
        [⟨v, c, m, sortDedup (g₁ ++ g₂)⟩]) ∧
    (∀ e₁ e₂ : VarRec, get_key e₁.subject ≠ get_key e₂.subject →
      exclude_duplicates [e₁, e₂] = [e₁, e₂]) := by
  refine ⟨?_, ?_, ?_⟩
  · intro v c₁ m₁ c₂ m₂ g hg
    show List.foldl insertRec [] [_, _] = _
    rw [List.foldl_cons, List.foldl_cons, List.foldl_nil, insertRec_nil,
      insertRec_cons_pos ⟨v, c₁, m₁, g⟩ [] ⟨v, c₂, m₂, g⟩ rfl]
    simp only [mergeRec]
    rw [sortDedup_append_self, hg]
  · intro v c m g₁ g₂ hc hm
    show List.foldl insertRec [] [_, _] = _
    rw [List.foldl_cons, List.foldl_cons, List.foldl_nil, insertRec_nil,
      insertRec_cons_pos ⟨v, c, m, g₁⟩ [] ⟨v, c, m, g₂⟩ rfl]
    simp only [mergeRec]
    rw [sortDedup_append_self, sortDedup_append_self, hc, hm]
  · intro e₁ e₂ h
    show List.foldl insertRec [] [e₁, e₂] = _
    rw [List.foldl_cons, List.foldl_cons, List.foldl_nil, insertRec_nil,
      insertRec_cons_neg _ _ _ h, insertRec_nil]

/-- C2 witness: the merge rules applied at the concrete inputs of
`test_exclude_duplicates`. -/
theorem exclude_duplicates_merge_rules_witness :
    exclude_duplicates
        [⟨snv1, ["single_variant"], ["Monoallelic"], ["TEST1"]⟩,
         ⟨snv1, ["compound_het"], ["Biallelic"], ["TEST1"]⟩] =
      [⟨snv1, sortDedup (["single_variant"] ++ ["compound_het"]),
        sortDedup (["Monoallelic"] ++ ["Biallelic"]), ["TEST1"]⟩] ∧
    exclude_duplicates
        [⟨snv1, ["single_variant"], ["Monoallelic"], ["TEST1"]⟩,
         ⟨snv1, ["single_variant"], ["Monoallelic"], ["TEST2"]⟩] =
      [⟨snv1, ["single_variant"], ["Monoallelic"],
        sortDedup (["TEST1"] ++ ["TEST2"])⟩] ∧
    exclude_duplicates
        [⟨snv1, ["single_variant"], ["Monoallelic"], ["TEST1"]⟩,
         ⟨snv2b, ["single_variant"], ["Monoallelic"], ["OTHER1"]⟩] =
      [⟨snv1, ["single_variant"], ["Monoallelic"], ["TEST1"]⟩,
       ⟨snv2b, ["single_variant"], ["Monoallelic"], ["OTHER1"]⟩] :=
  ⟨exclude_duplicates_merge_rules.1 snv1 _ _ _ _ _ (by decide),
   exclude_duplicates_merge_rules.2.1 snv1 _ _ _ _ (by decide) (by decide),
   exclude_duplicates_merge_rules.2.2 _ _ (by decide)⟩

/-- C3 counterexample: with a populated knowledge base lacking TEST2,
`find_variants` returns no results for a variant in TEST2, although the
same call with the knowledge base unset returns results under the default
Monoallelic and Mosaic models; the populated-but-missing case is therefore
not evaluated against the default model set. -/
theorem find_variants_unknown_gene_restrictive :
    cfgKB.find_variants [snv1] (some "TEST2") fam1 = [] ∧
    cfgNone.find_variants [snv1] (some "TEST2") fam1 =
      [⟨snv1, ["single_variant"], ["Monoallelic"], ["TEST2"]⟩,
       ⟨snv1, ["single_variant"], ["Mosaic"], ["TEST2"]⟩] ∧
    cfgKB.find_variants [snv1] (some "TEST2") fam1 ≠
      cfgNone.find_variants [snv1] (some "TEST2") fam1 :=
  ⟨by decide, by decide, by decide⟩

/-- C3 amended: with the knowledge base unset, `find_variants` evaluates
against the full default model set, which includes Monoallelic and Mosaic;
with a populated knowledge base that has no entry for the gene symbol it
returns no results. -/
theorem find_variants_default_models (cfg : Filter) (variants : List TrioGenotypes)
    (g : String) (fam : Family) :
    (cfg.known_genes = none →
      cfg.find_variants variants (some g) fam =
        eval_gene cfg (modes_for variants) variants g fam) ∧
    ("Monoallelic" ∈ autosomal_modes ∧ "Mosaic" ∈ autosomal_modes) ∧
    (∀ kb, cfg.known_genes = some kb → lookup_gene kb g = none →
      cfg.find_variants variants (some g) fam = []) := by
  refine ⟨?_, ⟨by decide, by decide⟩, ?_⟩
  · intro h
    simp [Filter.find_variants, h]
  · intro kb hkb hg
    simp [Filter.find_variants, hkb, hg]

/-- C3 amended witness: the two branches at concrete inputs. -/
theorem find_variants_default_models_witness :
    cfgNone.find_variants [snv1] (some "TEST2") fam1 =
      eval_gene cfgNone (modes_for [snv1]) [snv1] "TEST2" fam1 ∧
    cfgKB.find_variants [snv2b] (some "TESTZ") fam1 = [] :=
  ⟨(find_variants_default_models cfgNone [snv1] "TEST2" fam1).1 rfl,
   (find_variants_default_models cfgKB [snv2b] "TESTZ" fam1).2.2 _ rfl (by decide)⟩

/-- C4: `exclude_duplicates` is order-independent: permuting the input list
yields a set-wise equal merged output, records being compared as the spec
compares them — by variant identity (chromosome, position, alleles) and
the three label lists. -/
theorem exclude_duplicates_order_independent (l₁ l₂ : List VarRec)
    (h : l₁.Perm l₂) :
    ((exclude_duplicates l₁).map projRec).Perm
      ((exclude_duplicates l₂).map projRec) :=
  foldl_insertRec_perm_invariant h [] [] (by simp [keysR]) (List.Perm.refl _)

/-- C4 witness: order independence at a concrete two-record input. -/
theorem exclude_duplicates_order_independent_witness :
    ((exclude_duplicates
        [⟨snv1, ["single_variant"], ["Monoallelic"], ["TEST1"]⟩,
         ⟨snv1, ["single_variant"], ["Mosaic"], ["TEST2"]⟩]).map projRec).Perm
      ((exclude_duplicates
        [⟨snv1, ["single_variant"], ["Mosaic"], ["TEST2"]⟩,
         ⟨snv1, ["single_variant"], ["Monoallelic"], ["TEST1"]⟩]).map projRec) :=
  exclude_duplicates_order_independent _ _ (List.Perm.swap _ _ _)

/-- C5: `exclude_duplicates` is idempotent: applying it to its own output
returns that output unchanged. -/
theorem exclude_duplicates_idempotent (l : List VarRec) :
    exclude_duplicates (exclude_duplicates l) = exclude_duplicates l := by
  show (exclude_duplicates l).foldl insertRec [] = exclude_duplicates l
  rw [foldl_insertRec_of_nodup (exclude_duplicates l) []
    (by simpa using nodup_keysR_exclude_duplicates l)]
  simp

/-- C6: `find_variants` with an absent gene symbol returns the empty result
list, for every variant list and every family, whatever the knowledge base
holds. -/
theorem find_variants_absent_gene (cfg : Filter) (variants : List TrioGenotypes)
    (fam : Family) : cfg.find_variants variants none fam = [] := rfl

/-- C7: `add_father` fails exactly when the sex code is not male or a father
with a different person id was already added, re-adding the identical
father is a no-op, and symmetrically for `add_mother`. -/
theorem add_parents_validation (fam : Family)
    (person_id dad_id mom_id gender status path : String) :
    (isErr (fam.add_father person_id dad_id mom_id gender status path) = true ↔
      gender ∉ maleCodes ∨ ∃ f, fam.father = some f ∧ f.person_id ≠ person_id) ∧
    (∀ f, fam.father = some f → f.person_id = person_id → gender ∈ maleCodes →
      fam.add_father person_id dad_id mom_id gender status path = .ok fam) ∧
    (isErr (fam.add_mother person_id dad_id mom_id gender status path) = true ↔
      gender ∉ femaleCodes ∨ ∃ m, fam.mother = some m ∧ m.person_id ≠ person_id) ∧
    (∀ m, fam.mother = some m → m.person_id = person_id → gender ∈ femaleCodes →
      fam.add_mother person_id dad_id mom_id gender status path = .ok fam) := by
  refine ⟨?_, ?_, ?_, ?_⟩
  · by_cases hg : gender ∈ maleCodes
    · cases hf : fam.father with
      | none => simp [Family.add_father, isErr, hg, hf]
      | some f =>
          by_cases hid : f.person_id = person_id
          · simp [Family.add_father, isErr, hg, hf, hid]
          · simp [Family.add_father, isErr, hg, hf, hid]
    · simp [Family.add_father, isErr, hg]
  · intro f hf hid hg
    simp [Family.add_father, hf, hid, hg]
  · by_cases hg : gender ∈ femaleCodes
    · cases hf : fam.mother with
      | none => simp [Family.add_mother, isErr, hg, hf]
      | some m =>
          by_cases hid : m.person_id = person_id
          · simp [Family.add_mother, isErr, hg, hf, hid]
          · simp [Family.add_mother, isErr, hg, hf, hid]
    · simp [Family.add_mother, isErr, hg]
  · intro m hf hid hg
    simp [Family.add_mother, hf, hid, hg]

/-- C7 witness: the validation outcomes at the concrete inputs of
`test_add_father` and `test_add_mother`. -/
theorem add_parents_validation_witness :
    isErr (famA.add_father "different_ID" "0" "0" "1" "1" "/home/parent.vcf") = true ∧
    famA.add_father "dad" "0" "0" "male" "1" "dad.vcf" = .ok famA ∧
    isErr (famEmpty.add_father "parent_ID" "0" "0" "2" "1" "/home/parent.vcf") = true ∧
    isErr (famEmpty.add_mother "parent_ID" "0" "0" "1" "1" "/home/parent.vcf") = true :=
  ⟨(add_parents_validation famA "different_ID" "0" "0" "1" "1" "/home/parent.vcf").1.mpr
     (Or.inr ⟨_, rfl, by decide⟩),
   (add_parents_validation famA "dad" "0" "0" "male" "1" "dad.vcf").2.1 _ rfl rfl
     (by decide),
   (add_parents_validation famEmpty "parent_ID" "0" "0" "2" "1"
     "/home/parent.vcf").1.mpr (Or.inl (by decide)),
   (add_parents_validation famEmpty "parent_ID" "0" "0" "1" "1"
     "/home/parent.vcf").2.2.1.mpr (Or.inl (by decide))⟩

/-- C8 counterexample: `set_child_examined` does not clear the current-child
pointer: with two unexamined children, selecting and examining the first
leaves the pointer on the second child, exactly as `test_set_child_examined`
requires. -/
theorem set_child_examined_not_cleared :
    ((famTwo.set_child).set_child_examined).child ≠ none := by decide

/-- C8 amended: `set_child` selects the first unexamined child in insertion
order or none; `set_child_examined` marks the current child analysed and
re-selects, so after N rounds on a family of N fresh children with
distinct ids every child is analysed and the pointer is absent, while the
pointer is present after selection as long as any child is unexamined. -/
theorem set_child_rounds_exhaust (fam : Family)
    (hn : (fam.children.map Person.person_id).Nodup)
    (h0 : ∀ c ∈ fam.children, c.analysed = false) :
    (∀ g : Family, (g.set_child).child = g.children.find? (fun c => !c.analysed)) ∧
    (∀ c ∈ (analysis_rounds fam.children.length fam).children, c.analysed = true) ∧
    ((analysis_rounds fam.children.length fam).set_child).child = none ∧
    (0 < fam.children.length →
      (analysis_rounds fam.children.length fam).child = none) ∧
    (∀ k, k < fam.children.length →
      ((analysis_rounds k fam).set_child).child ≠ none) := by
  have hcount : countU fam.children = fam.children.length := by
    unfold countU
    rw [List.filter_eq_self.mpr]
    intro a ha
    simp [h0 a ha]
  obtain ⟨hfin, _⟩ := analysis_rounds_countU fam.children.length fam hn (by rw [hcount])
  have hz : countU (analysis_rounds fam.children.length fam).children = 0 := by
    rw [hfin, hcount, Nat.sub_self]
  have hfil : (analysis_rounds fam.children.length fam).children.filter
      (fun c => !c.analysed) = [] := List.length_eq_zero.mp hz
  refine ⟨fun g => rfl, ?_, ?_, ?_, ?_⟩
  · intro c hc
    have := List.filter_eq_nil_iff.mp hfil c hc
    simpa using this
  · show (analysis_rounds fam.children.length fam).children.find?
        (fun c => !c.analysed) = none
    exact find_unanalysed_of_zero _ hz
  · intro hpos
    rw [analysis_rounds_child fam.children.length hpos fam]
    exact find_unanalysed_of_zero _ hz
  · intro k hk
    obtain ⟨hck, _⟩ := analysis_rounds_countU k fam hn (by rw [hcount]; omega)
    have hkpos : 0 < countU (analysis_rounds k fam).children := by
      rw [hck, hcount]
      omega
    obtain ⟨c, hc⟩ := find_unanalysed_of_pos _ hkpos
    show (analysis_rounds k fam).children.find? (fun c => !c.analysed) ≠ none
    rw [hc]
    simp

/-- C8 amended witness: the round protocol exhausts the concrete
two-children family. -/
theorem set_child_rounds_exhaust_witness :
    (∀ c ∈ (analysis_rounds famTwo.children.length famTwo).children,
      c.analysed = true) ∧
    ((analysis_rounds famTwo.children.length famTwo).set_child).child = none :=
  ⟨(set_child_rounds_exhaust famTwo (by decide) (by decide)).2.1,
   (set_child_rounds_exhaust famTwo (by decide) (by decide)).2.2.1⟩

/-- C9: `open_known_genes` drops every row whose status is outside the
accepted set ("Possible DD Gene" rows are excluded even when otherwise
well-formed, "Confirmed DD Gene" rows are kept), and a load yielding zero
genes raises an error instead of returning an empty mapping. -/
theorem open_known_genes_status_filter :
    ("Possible DD Gene" ∉ accepted_statuses ∧
      "Confirmed DD Gene" ∈ accepted_statuses) ∧
    (∀ (rows : List GeneRow) (m : List (String × GeneEntry)) (g : String)
      (e : GeneEntry), open_known_genes rows = .ok m → (g, e) ∈ m →
        ∃ row ∈ rows, row.gene = g ∧ row.status ∈ accepted_statuses) ∧
    (∀ rows : List GeneRow, (∀ row ∈ rows, row.status ∉ accepted_statuses) →
      open_known_genes rows =
        .error "No genes found in the file, check the line endings") ∧
    open_known_genes [rowPossible, rowConfirmed] = .ok [("TEST2", entryConfirmed)] := by
  refine ⟨⟨by decide, by decide⟩, ?_, ?_, rfl⟩
  · intro rows m g e hok hmem
    have hm : m = rows.foldl add_gene_row [] := by
      unfold open_known_genes at hok
      by_cases hE : (rows.foldl add_gene_row []).isEmpty = true
      · rw [if_pos hE] at hok
        exact absurd hok (by simp)
      · rw [if_neg hE] at hok
        exact (Except.ok.inj hok).symm
    rcases mem_foldl_add_gene_row rows [] g e (hm ▸ hmem) with ⟨e', he'⟩ | h2
    · simp at he'
    · exact h2
  · intro rows hrej
    unfold open_known_genes
    rw [foldl_add_gene_row_rejected rows hrej []]
    rfl

/-- C9 witness: the general facts applied at the concrete table of
`test_open_known_genes_wrong_status` and at a rejected-row table. -/
theorem open_known_genes_status_filter_witness :
    (∃ row ∈ [rowPossible, rowConfirmed], row.gene = "TEST2" ∧
      row.status ∈ accepted_statuses) ∧
    open_known_genes [rowPossible] =
      .error "No genes found in the file, check the line endings" :=
  ⟨open_known_genes_status_filter.2.1 [rowPossible, rowConfirmed]
     [("TEST2", entryConfirmed)] "TEST2" entryConfirmed rfl (by decide),
   open_known_genes_status_filter.2.2.1 [rowPossible] (by decide)⟩

/-- C10: `create_person_ID_mapper` skips every row whose alternate id holds
a ':' (no stored value ever holds one), collapses duplicate identical rows,
and treats the header line as an ordinary row, as on the concrete table of
`test_create_person_ID_mapper_dups_and_parents`. -/
theorem create_person_ID_mapper_spec :
    (∀ rows : List (String × String), ∀ p ∈ create_person_ID_mapper rows,
      hasColon p.2 = false) ∧
    create_person_ID_mapper idRows =
      [("sample_id", "alt_id"), ("sample_01", "decipher55"),
       ("sample_02", "decipher77")] := by
  refine ⟨?_, by decide⟩
  · intro rows p hp
    exact mapper_fold_no_colon rows [] (by simp) p hp

/-- C10 witness: the colon-freedom fact applied at a member of the concrete
mapping. -/
theorem create_person_ID_mapper_spec_witness :
    hasColon (("sample_01", "decipher55") : String × String).2 = false :=
  create_person_ID_mapper_spec.1 idRows ("sample_01", "decipher55") (by decide)

end CF
